import Mathlib

/-!
Verification of the STMiner distribution module (src/Algorithm/distribution.py).

The Python functions are embedded shallowly: matrices become lists of rows of
natural numbers, the point-cloud sample becomes a list of coordinate pairs,
the external EM solver and its BIC score become explicit function parameters,
and code that can raise a Python exception returns an `Except`.
-/

set_option autoImplicit false

namespace STMiner

/-- A 2D integer coordinate, as produced by np.where over a 2D array. -/
abbrev Coord := ℕ × ℕ

/-- A dense 2D non-negative integer count matrix, row major. -/
abbrev Matrix2 := List (List ℕ)

/-- Embedding of `_array_to_list` (distribution.py lines 328-332):
`coords = np.column_stack(np.where(matrix > 0))` lists, in row-major order,
the coordinates of the cells with positive value; `counts` lists the positive
values in the same order; `np.repeat(coords, counts, axis=0)` emits each
coordinate as many times as its value. -/
def array_to_list (matrix : Matrix2) : List Coord :=
  let cells : List (Coord × ℕ) :=
    matrix.enum.flatMap (fun rc => rc.2.enum.map (fun cv => ((rc.1, cv.1), cv.2)))
  let positive := cells.filter (fun pv => 0 < pv.2)
  positive.flatMap (fun pv => List.replicate pv.2 pv.1)

/-- Ascending sort of rational values, as np.percentile sorts its input. -/
def npSort (l : List ℚ) : List ℚ := l.insertionSort (fun a b => a ≤ b)

/-- Modelled from the spec: message of the exception np.percentile raises on
an empty array or an out-of-range percentile; the exact wording lives in the
external numpy library, outside this repository. -/
def percentileErrMsg : String := "numpy percentile error"

/-- Linear interpolation between the entries at positions i and i + 1 of the
sorted value list, as np.percentile interpolates; at the last position there
is no successor and the entry itself is returned. The 0 default of the
lookups is never reached, because i always lies inside the list. -/
def interp (v : List ℚ) (i : ℕ) (frac : ℚ) : ℚ :=
  match v.get? (i + 1) with
  | some b => (v.get? i).getD 0 + frac * (b - (v.get? i).getD 0)
  | none => (v.get? i).getD 0

/-- Embedding of np.percentile with the default linear interpolation over the
flattened matrix: with the values sorted ascending and n of them, the result
sits at fractional position q / 100 * (n - 1). np.percentile raises (here:
none) when q lies outside [0, 100] or the array is empty. -/
def percentile (matrix : Matrix2) (q : ℚ) : Option ℚ :=
  if q < 0 ∨ 100 < q then none
  else
    let v := npSort (matrix.flatten.map (fun x => (x : ℚ)))
    if v = [] then none
    else
      let pos : ℚ := q / 100 * ((v.length : ℚ) - 1)
      let i : ℕ := (Int.floor pos).toNat
      some (interp v i (pos - (i : ℚ)))

/-- Embedding of the guard `threshold > 100 | threshold < 0` (distribution.py
line 104). In Python, the bitwise `|` binds tighter than the comparisons, so
the line parses as the chained comparison
`(threshold > (100 | threshold)) and ((100 | threshold) < 0)`. -/
def pyGuard (threshold : ℤ) : Bool :=
  decide (Int.lor 100 threshold < threshold) && decide (Int.lor 100 threshold < 0)

/-- Embedding of `np.where(dense_array > p, 1, 0)` (distribution.py line 107):
every cell strictly above the threshold value becomes 1, every other cell 0. -/
def binarize (matrix : Matrix2) (p : ℚ) : Matrix2 :=
  matrix.map (fun row => row.map (fun (x : ℕ) => if p < ((x : ℚ)) then (1 : ℕ) else 0))

/-- Embedding of `dense_array[dense_array < p] = 0` (distribution.py line
111): every cell strictly below the threshold value becomes 0. -/
def cutMatrix (matrix : Matrix2) (p : ℚ) : Matrix2 :=
  matrix.map (fun row => row.map (fun (x : ℕ) => if ((x : ℚ) < p) then (0 : ℕ) else x))

/-- Embedding of the preprocessing stage of `fit_gmm` (distribution.py lines
103-112): the binary branch first runs the (ineffective) threshold guard,
then binarizes above the percentile; the cut branch zeroes below the
percentile; otherwise the raw matrix is expanded. The sample list is the
`result` variable of the source. -/
def fit_gmm_sample (dense_array : Matrix2) (binary cut : Bool) (threshold : ℤ) :
    Except String (List Coord) :=
  if binary then
    let t : ℤ := if pyGuard threshold then 100 else threshold
    match percentile dense_array (t : ℚ) with
    | none => .error percentileErrMsg
    | some p => .ok (array_to_list (binarize dense_array p))
  else if cut then
    match percentile dense_array (threshold : ℚ) with
    | none => .error percentileErrMsg
    | some p => .ok (array_to_list (cutMatrix dense_array p))
  else .ok (array_to_list dense_array)

/-- Shape of the external EM solver as `fit_gmm` calls it:
`mixture.GaussianMixture(n_components, max_iter, reg_covar).fit(result)`. -/
def SolverF (μ : Type) : Type := ℕ → ℕ → ℚ → List Coord → μ

/-- Embedding of the guard and solver call of `fit_gmm` (distribution.py
lines 113-119): the number of distinct coordinates in the sample,
`len(set(map(tuple, result)))`, must reach `n_comp`, otherwise the function
returns None without touching the solver. -/
def fit_gmm_fit {μ : Type} (solver : SolverF μ) (result : List Coord)
    (n_comp max_iter : ℕ) (reg_covar : ℚ) : Option μ :=
  if n_comp ≤ result.dedup.length then
    some (solver n_comp max_iter reg_covar result)
  else none

/-- Embedding of `fit_gmm` (distribution.py lines 69-119): preprocess the
dense array into a sample, then fit with the distinct-support guard. A raised
exception (from np.percentile) surfaces as an error. -/
def fit_gmm {μ : Type} (solver : SolverF μ) (dense_array : Matrix2)
    (n_comp : ℕ) (cut binary : Bool) (threshold : ℤ) (max_iter : ℕ)
    (reg_covar : ℚ) : Except String (Option μ) :=
  (fit_gmm_sample dense_array binary cut threshold).map
    (fun result => fit_gmm_fit solver result n_comp max_iter reg_covar)

/-- Embedding of the Python builtin `min` on a nonempty list `a :: as`. -/
def pyMin (a : ℚ) (as : List ℚ) : ℚ := as.foldl min a

/-- Embedding of the Python `list.index` method: index of the first element
equal to x (length of the list when x is absent, a case the source never
reaches because it looks up `min(bic_list)`). -/
def pyIndex (x : ℚ) : List ℚ → ℕ
  | [] => 0
  | a :: as => if a = x then 0 else pyIndex x as + 1

/-- Modelled from the spec: message of the ValueError `min(bic_list)` raises
when the candidate range `range(min_n_comp, max_n_comp)` is empty; the exact
wording belongs to the Python runtime, outside this repository. -/
def minEmptyMsg : String := "min arg is an empty sequence"

/-- Modelled from the spec: message of the IndexError for an out-of-range
list subscript; the source never reaches it because the looked-up index of
the minimal BIC is always in range. -/
def indexErrMsg : String := "list index out of range"

/-- Shape of the external EM solver as `fit_gmm_bic` calls it:
`mixture.GaussianMixture(n_components, max_iter).fit(result)`. -/
def SolverB (μ : Type) : Type := ℕ → ℕ → List Coord → μ

/-- Embedding of lines 62-64 of `fit_gmm_bic`:
`index = bic_list.index(min(bic_list)); n_comp = min_n_comp + index;
return n_comp, gmm_list[index]`, together with the ValueError `min` raises on
an empty bic list. -/
def select_bic {μ : Type} (min_n_comp : ℕ) (gmm_list : List μ) :
    List ℚ → Except String (Option (ℕ × μ))
  | [] => .error minEmptyMsg
  | b :: bs =>
    match gmm_list.get? (pyIndex (pyMin b bs) (b :: bs)) with
    | some g => .ok (some (min_n_comp + pyIndex (pyMin b bs) (b :: bs), g))
    | none => .error indexErrMsg

/-- Embedding of `fit_gmm_bic` (distribution.py lines 26-66): expand the
dense array, require strictly more distinct coordinates than `min_n_comp`,
fit one candidate per component count in `range(min_n_comp, max_n_comp)`,
score each with `bicOf`, and return the candidate at the first index of the
minimal BIC score, together with its component count. -/
def fit_gmm_bic {μ : Type} (solver : SolverB μ) (bicOf : μ → List Coord → ℚ)
    (dense_array : Matrix2) (min_n_comp max_n_comp max_iter : ℕ) :
    Except String (Option (ℕ × μ)) :=
  let result := array_to_list dense_array
  if min_n_comp < result.dedup.length then
    let gmm_list := (List.range' min_n_comp (max_n_comp - min_n_comp)).map
      (fun i => solver i max_iter result)
    select_bic min_n_comp gmm_list (gmm_list.map (fun g => bicOf g result))
  else
    .ok none

/-- Always-unit EM solver, used to instantiate witnesses. -/
def solverU : SolverF Unit := fun _ _ _ _ => ()

/-- A two-point sample with two distinct coordinates. -/
def sampleTwo : List Coord := [(0, 0), (0, 1)]

/-- Component-count-recording EM solver over naturals, for witnesses. -/
def solN : SolverB ℕ := fun n _ _ => n

/-- A concrete BIC score with an exact tie between candidates 3 and 4. -/
def bicN : ℕ → List Coord → ℚ := fun g _ => if g = 3 then 5 else if g = 4 then 5 else 9

/-- Python dict assignment `d[k] = v` on an association list in insertion
order: replace the value at an existing key in place, else append. -/
def insertD {β : Type} : List (String × β) → String → β → List (String × β)
  | [], k, v => [(k, v)]
  | (k0, v0) :: rest, k, v =>
    if k0 = k then (k0, v) :: rest else (k0, v0) :: insertD rest k v

/-- Message of the ValueError the batch fitters raise around a failed
per-gene fit: `"Gene id: " + gene_id + "\nError: " + error_msg`
(distribution.py line 170 and line 216). -/
def geneIdMsg (gene_id error_msg : String) : String :=
  "Gene id: " ++ gene_id ++ "\nError: " ++ error_msg

/-- Test for the recoverable no-fit outcome of a per-gene fit. -/
def isOkNone {μ : Type} : Except String (Option μ) → Bool
  | .ok none => true
  | _ => false

/-- Test for a per-gene fit that did not raise. -/
def isOkE {ε μ : Type} : Except ε μ → Bool
  | .ok _ => true
  | .error _ => false

/-- Loop of `fit_gmms` (distribution.py lines 151-173), processed gene by
gene with the gmm dict and the dropped counter threaded through: a raised
per-gene exception aborts the whole batch wrapped with the gene id, a None
fit bumps the dropped counter, a model is inserted under the gene id. -/
def fit_gmms_go {μ : Type} (fitOf : String → Except String (Option μ)) :
    List String → List (String × μ) → ℕ →
      Except String (List (String × μ) × ℕ)
  | [], gmm_dict, dropped_genes_count => .ok (gmm_dict, dropped_genes_count)
  | gene_id :: rest, gmm_dict, dropped_genes_count =>
    match fitOf gene_id with
    | .error e => .error (geneIdMsg gene_id e)
    | .ok (some fit_result) =>
      fit_gmms_go fitOf rest (insertD gmm_dict gene_id fit_result) dropped_genes_count
    | .ok none => fit_gmms_go fitOf rest gmm_dict (dropped_genes_count + 1)

/-- Per-gene fit exactly as `fit_gmms` performs it (distribution.py lines
157-163): `fit_gmm` with the batch parameters and the default cut=False. -/
def geneFit {μ : Type} (solver : SolverF μ) (adata : String → Matrix2)
    (n_comp : ℕ) (binary : Bool) (threshold : ℤ) (max_iter : ℕ)
    (reg_covar : ℚ) (gene_id : String) : Except String (Option μ) :=
  fit_gmm solver (adata gene_id) n_comp false binary threshold max_iter reg_covar

/-- Embedding of `fit_gmms` (distribution.py lines 122-173). -/
def fit_gmms {μ : Type} (solver : SolverF μ) (adata : String → Matrix2)
    (gene_name_list : List String) (n_comp : ℕ) (binary : Bool)
    (threshold : ℤ) (max_iter : ℕ) (reg_covar : ℚ) :
    Except String (List (String × μ) × ℕ) :=
  fit_gmms_go (geneFit solver adata n_comp binary threshold max_iter reg_covar)
    gene_name_list [] 0

/-- Update of `comp_dict` in `fit_gmms_bic` (distribution.py lines 209-213):
append the gene id to the list at key n, creating the key if absent. -/
def insertComp : List (ℕ × List String) → ℕ → String → List (ℕ × List String)
  | [], n, g => [(n, [g])]
  | (n0, gs) :: rest, n, g =>
    if n0 = n then (n0, gs ++ [g]) :: rest else (n0, gs) :: insertComp rest n g

/-- Modelled from the spec: message of the TypeError Python raises when
`n_comp, fit_result = None` unpacks a None returned by `fit_gmm_bic`; the
exact wording belongs to the Python runtime, outside this repository. -/
def unpackNoneMsg : String := "cannot unpack non-iterable NoneType object"

/-- Loop of `fit_gmms_bic` (distribution.py lines 199-217): each gene is fit
with `fit_gmm_bic`, the pair result is unpacked (a None fit raises a
TypeError that the except clause wraps into the gene-naming ValueError), and
the model and component count are recorded. -/
def fit_gmms_bic_go {μ : Type} (fitOf : String → Except String (Option (ℕ × μ))) :
    List String → List (String × μ) → List (ℕ × List String) →
      Except String (List (String × μ) × List (ℕ × List String))
  | [], gmm_dict, comp_dict => .ok (gmm_dict, comp_dict)
  | gene_id :: rest, gmm_dict, comp_dict =>
    match fitOf gene_id with
    | .error e => .error (geneIdMsg gene_id e)
    | .ok none => .error (geneIdMsg gene_id unpackNoneMsg)
    | .ok (some nf) =>
      fit_gmms_bic_go fitOf rest (insertD gmm_dict gene_id nf.2)
        (insertComp comp_dict nf.1 gene_id)

/-- Per-gene fit exactly as `fit_gmms_bic` performs it (distribution.py
lines 203-207). -/
def bicGeneFit {μ : Type} (solver : SolverB μ) (bicOf : μ → List Coord → ℚ)
    (adata : String → Matrix2) (min_n_comp max_n_comp max_iter : ℕ)
    (gene_id : String) : Except String (Option (ℕ × μ)) :=
  fit_gmm_bic solver bicOf (adata gene_id) min_n_comp max_n_comp max_iter

/-- Embedding of `fit_gmms_bic` (distribution.py lines 176-217). -/
def fit_gmms_bic {μ : Type} (solver : SolverB μ) (bicOf : μ → List Coord → ℚ)
    (adata : String → Matrix2) (gene_name_list : List String)
    (min_n_comp max_n_comp max_iter : ℕ) :
    Except String (List (String × μ) × List (ℕ × List String)) :=
  fit_gmms_bic_go (bicGeneFit solver bicOf adata min_n_comp max_n_comp max_iter)
    gene_name_list [] []

/-- Embedding of `fit_gmms_multiprocessing` together with `_fit_worker`
(distribution.py lines 220-252 and 324-325). Each worker runs
`shared_dict[gene_name] = fit_gmm_bic(adata, gene_name, n_comp, max_iter)`;
the two positional arguments land in the `min_n_comp` and `max_n_comp` slots
of `fit_gmm_bic`, whose own `max_iter` stays at its default 200. The pool
dispatches with `apply_async` and never collects the AsyncResult objects, so
an exception raised inside a worker is recorded there and silently dropped:
the gene simply gets no entry. Gene ids are unique per batch, so the final
shared dict does not depend on worker interleaving and equals this
sequential fold. -/
def fit_gmms_multiprocessing {μ : Type} (solver : SolverB μ)
    (bicOf : μ → List Coord → ℚ) (adata : String → Matrix2)
    (gene_name_list : List String) (n_comp max_iter : ℕ) :
    List (String × Option (ℕ × μ)) :=
  gene_name_list.foldl
    (fun shared_dict gene_name =>
      match fit_gmm_bic solver bicOf (adata gene_name) n_comp max_iter 200 with
      | .error _ => shared_dict
      | .ok r => insertD shared_dict gene_name r)
    []

/-- Container for the C4 witness: gene a holds one count, gene b only zeros. -/
def adBatch : String → Matrix2 := fun g => if g = "a" then [[1]] else [[0]]

/-- Container for the C5 witness: gene b has an empty matrix, so its binary
fit raises inside np.percentile. -/
def adAbort : String → Matrix2 := fun g => if g = "a" then [[1]] else []

/-- Container for the C5 counterexample and the C7 defect: every gene has six
distinct positive cells. -/
def adSix : String → Matrix2 := fun _ => [[1, 1, 1], [1, 1, 1]]

/-- Container for the C10 witness: gene a fits, gene b holds only zeros. -/
def adUnpack : String → Matrix2 := fun g => if g = "a" then [[1, 1]] else [[0]]

/-- Component-count and iteration-budget recording solver, for C7. -/
def solRec : SolverB (ℕ × ℕ) := fun n_components max_iter _ => (n_components, max_iter)

/-- A BIC score preferring the 6-component candidate, for C7. -/
def bicPrefSix : ℕ × ℕ → List Coord → ℚ := fun g _ => if g.1 = 6 then 0 else 1

/-- Dropping the positivity filter does not change the expansion, because a
cell with value 0 expands to the empty list. -/
lemma filter_pos_flatMap_replicate (cells : List (Coord × ℕ)) :
    (cells.filter (fun pv => 0 < pv.2)).flatMap (fun pv => List.replicate pv.2 pv.1) =
      cells.flatMap (fun pv => List.replicate pv.2 pv.1) := by
  induction cells with
  | nil => rfl
  | cons hd tl ih =>
    by_cases h : 0 < hd.2
    · simp [List.filter_cons, h, List.flatMap_cons, ih]
    · have h0 : hd.2 = 0 := by omega
      simp [List.filter_cons, h, List.flatMap_cons, ih, h0]

/-- Counting a coordinate in the expansion of a cell list adds up the values
of the cells carrying that coordinate. -/
lemma count_flatMap_replicate (cells : List (Coord × ℕ)) (x : Coord) :
    (cells.flatMap (fun pv => List.replicate pv.2 pv.1)).count x =
      (cells.map (fun pv => if pv.1 = x then pv.2 else 0)).sum := by
  induction cells with
  | nil => rfl
  | cons hd tl ih =>
    rw [List.flatMap_cons, List.count_append, ih, List.map_cons, List.sum_cons,
      List.count_replicate]
    by_cases h : hd.1 = x
    · simp [h]
    · simp [h]

/-- Unfolding of `List.enum` into `List.enumFrom`. -/
lemma enum_eq_enumFrom {α : Type} (l : List α) : l.enum = List.enumFrom 0 l := rfl

/-- Sum of a flatMap of lists of naturals is the sum of the per-element sums. -/
lemma sum_flatMap_nat {α : Type} (l : List α) (f : α → List ℕ) :
    (l.flatMap f).sum = (l.map (fun x => (f x).sum)).sum := by
  induction l with
  | nil => rfl
  | cons hd tl ih => simp [List.flatMap_cons, ih]

/-- Row-level count: summing the selector over one enumerated row picks out
the value at column c when the row index matches. -/
lemma row_weight_sum (r c r' : ℕ) (row : List ℕ) :
    ∀ s : ℕ,
      ((List.enumFrom s row).map
          (fun cv => if ((r', cv.1) : Coord) = (r, c) then cv.2 else 0)).sum =
        if r' = r ∧ s ≤ c then row.getD (c - s) 0 else 0 := by
  induction row with
  | nil =>
    intro s
    simp only [List.enumFrom, List.map_nil, List.sum_nil, List.getD]
    by_cases h : r' = r ∧ s ≤ c <;> simp [h]
  | cons v vs ih =>
    intro s
    simp only [List.enumFrom, List.map_cons, List.sum_cons, ih (s + 1)]
    by_cases hr : r' = r
    · subst hr
      by_cases hsc : s = c
      · subst hsc
        have h1 : ¬ (s + 1 ≤ s) := by omega
        simp [h1, Nat.sub_self]
      · by_cases hle : s ≤ c
        · have hlt : s + 1 ≤ c := by omega
          have hx : ¬ (((r', s) : Coord) = (r', c)) := by
            simp [Prod.ext_iff, hsc]
          obtain ⟨k, hk⟩ : ∃ k, c - s = k + 1 := ⟨c - s - 1, by omega⟩
          have hk2 : c - (s + 1) = k := by omega
          simp [hx, hlt, hle, hk, hk2]
        · have h1 : ¬ (s + 1 ≤ c) := by omega
          have hx : ¬ (((r', s) : Coord) = (r', c)) := by
            simp [Prod.ext_iff]
            omega
          simp [hx, h1, hle]
    · have hx : ¬ (((r', s) : Coord) = (r, c)) := by
        simp [Prod.ext_iff, hr]
      simp [hx, hr]

/-- Matrix-level count: summing the row sums over the enumerated rows picks
out the value at (r, c). -/
lemma matrix_weight_sum (r c : ℕ) (m : Matrix2) :
    ∀ s : ℕ,
      ((List.enumFrom s m).map
          (fun rc =>
            ((rc.2.enum.map (fun cv => ((rc.1, cv.1), cv.2))).map
                (fun pv => if pv.1 = ((r, c) : Coord) then pv.2 else 0)).sum)).sum =
        if s ≤ r then (m.getD (r - s) []).getD c 0 else 0 := by
  induction m with
  | nil =>
    intro s
    simp only [List.enumFrom, List.map_nil, List.sum_nil, List.getD]
    by_cases h : s ≤ r <;> simp [h]
  | cons row rest ih =>
    intro s
    simp only [List.enumFrom, List.map_cons, List.sum_cons, ih (s + 1)]
    have hrow :
        ((row.enum.map (fun cv => ((s, cv.1), cv.2))).map
            (fun pv => if pv.1 = ((r, c) : Coord) then pv.2 else 0)).sum =
          if s = r ∧ 0 ≤ c then row.getD (c - 0) 0 else 0 := by
      rw [List.map_map, enum_eq_enumFrom]
      exact row_weight_sum r c s row 0
    rw [hrow]
    by_cases hs : s = r
    · subst hs
      have h1 : ¬ (s + 1 ≤ s) := by omega
      simp [h1, Nat.sub_self]
    · by_cases hle : s ≤ r
      · have h1 : s + 1 ≤ r := by omega
        obtain ⟨k, hk⟩ : ∃ k, r - s = k + 1 := ⟨r - s - 1, by omega⟩
        have hk2 : r - (s + 1) = k := by omega
        simp [hs, h1, hle, hk, hk2]
      · have h1 : ¬ (s + 1 ≤ r) := by omega
        simp [hs, h1, hle]

/-- Occurrence count of a coordinate in the sample built by `_array_to_list`:
it equals the matrix value at that coordinate (0 outside the matrix). -/
lemma count_array_to_list (m : Matrix2) (r c : ℕ) :
    (array_to_list m).count (r, c) = (m.getD r []).getD c 0 := by
  unfold array_to_list
  rw [filter_pos_flatMap_replicate, count_flatMap_replicate, List.map_flatMap]
  have hsum :
      (m.enum.flatMap
          (fun rc =>
            (rc.2.enum.map (fun cv => ((rc.1, cv.1), cv.2))).map
              (fun pv => if pv.1 = ((r, c) : Coord) then pv.2 else 0))).sum =
        (m.enum.map
          (fun rc =>
            ((rc.2.enum.map (fun cv => ((rc.1, cv.1), cv.2))).map
                (fun pv => if pv.1 = ((r, c) : Coord) then pv.2 else 0)).sum)).sum := by
    rw [sum_flatMap_nat]
  rw [hsum, enum_eq_enumFrom]
  have := matrix_weight_sum r c m 0
  rw [this]
  simp

/-- Claim C1: Sample Builder round-trip. For every 2D non-negative integer
matrix, counting the occurrences of each coordinate in the point cloud built
by `_array_to_list` in raw mode reproduces the matrix exactly: a cell (r, c)
with value n contributes exactly n copies of (r, c), and in particular a cell
with value 0 contributes nothing, and no out-of-range coordinate occurs. -/
theorem sample_builder_round_trip (m : Matrix2) (r c : ℕ) :
    (array_to_list m).count (r, c) = (m.getD r []).getD c 0 :=
  count_array_to_list m r c

/-- pyMin is a lower bound of the head and of every element of the tail. -/
lemma pyMin_le (a : ℚ) (as : List ℚ) :
    pyMin a as ≤ a ∧ ∀ x ∈ as, pyMin a as ≤ x := by
  induction as generalizing a with
  | nil => simp [pyMin]
  | cons b bs ih =>
    have hfold : pyMin a (b :: bs) = pyMin (min a b) bs := rfl
    obtain ⟨h1, h2⟩ := ih (min a b)
    refine ⟨?_, ?_⟩
    · rw [hfold]
      exact le_trans h1 (min_le_left a b)
    · intro x hx
      rcases List.mem_cons.mp hx with hx | hx
      · rw [hx, hfold]
        exact le_trans h1 (min_le_right a b)
      · rw [hfold]
        exact h2 x hx

/-- pyMin is attained by the head or by an element of the tail. -/
lemma pyMin_mem (a : ℚ) (as : List ℚ) :
    pyMin a as = a ∨ pyMin a as ∈ as := by
  induction as generalizing a with
  | nil => simp [pyMin]
  | cons b bs ih =>
    have hfold : pyMin a (b :: bs) = pyMin (min a b) bs := rfl
    rcases ih (min a b) with h | h
    · rcases le_total a b with hab | hab
      · left
        rw [hfold, h, min_eq_left hab]
      · right
        rw [hfold, h, min_eq_right hab]
        exact List.mem_cons_self b bs
    · right
      rw [hfold]
      exact List.mem_cons_of_mem b h

/-- When x occurs in l, pyIndex points inside l. -/
lemma pyIndex_lt (x : ℚ) (l : List ℚ) (h : x ∈ l) : pyIndex x l < l.length := by
  induction l with
  | nil => cases h
  | cons a as ih =>
    by_cases ha : a = x
    · simp [pyIndex, ha]
    · rcases List.mem_cons.mp h with h1 | h1
      · exact absurd h1.symm ha
      · simp only [pyIndex, ha, if_false, List.length_cons]
        exact Nat.succ_lt_succ (ih h1)

/-- When x occurs in l, the entry at pyIndex is x. -/
lemma get_pyIndex (x : ℚ) (l : List ℚ) (h : x ∈ l) :
    l.get? (pyIndex x l) = some x := by
  induction l with
  | nil => cases h
  | cons a as ih =>
    by_cases ha : a = x
    · simp [pyIndex, ha]
    · rcases List.mem_cons.mp h with h1 | h1
      · exact absurd h1.symm ha
      · simp only [pyIndex, ha, if_false]
        simpa using ih h1

/-- pyIndex is the first occurrence: strictly earlier entries differ from x. -/
lemma pyIndex_first (x : ℚ) (l : List ℚ) :
    ∀ j < pyIndex x l, l.get? j ≠ some x := by
  induction l with
  | nil =>
    intro j hj
    simp [pyIndex] at hj
  | cons a as ih =>
    intro j hj
    by_cases ha : a = x
    · simp [pyIndex, ha] at hj
    · simp only [pyIndex, ha, if_false] at hj
      cases j with
      | zero =>
        simp [ha]
      | succ k =>
        have hk : k < pyIndex x as := by omega
        simpa using ih k hk

/-- Zeta-reduced equation for `fit_gmm_bic`. -/
lemma fit_gmm_bic_eq {μ : Type} (solver : SolverB μ) (bicOf : μ → List Coord → ℚ)
    (m : Matrix2) (min_n_comp max_n_comp max_iter : ℕ) :
    fit_gmm_bic solver bicOf m min_n_comp max_n_comp max_iter =
      (if min_n_comp < (array_to_list m).dedup.length then
        select_bic min_n_comp
          ((List.range' min_n_comp (max_n_comp - min_n_comp)).map
            (fun i => solver i max_iter (array_to_list m)))
          (((List.range' min_n_comp (max_n_comp - min_n_comp)).map
            (fun i => solver i max_iter (array_to_list m))).map
            (fun g => bicOf g (array_to_list m)))
      else .ok none) := rfl

/-- Claim C2: insufficient-support guard of the fixed-count fitter. When the
sample holds fewer distinct coordinates than `n_comp`, `fit_gmm` returns None
without invoking the solver (the result is None for every solver of every
result type); when the distinct count reaches `n_comp`, it invokes the solver
on the sample and returns the fitted model. -/
theorem fixed_count_insufficient_support {μ : Type} (sample : List Coord)
    (n_comp max_iter : ℕ) (reg_covar : ℚ) :
    (sample.dedup.length < n_comp →
      ∀ (ν : Type) (solver : SolverF ν),
        fit_gmm_fit solver sample n_comp max_iter reg_covar = none) ∧
    (n_comp ≤ sample.dedup.length →
      ∀ solver : SolverF μ,
        fit_gmm_fit solver sample n_comp max_iter reg_covar =
          some (solver n_comp max_iter reg_covar sample)) := by
  constructor
  · intro h ν solver
    have hn : ¬ n_comp ≤ sample.dedup.length := by omega
    simp [fit_gmm_fit, hn]
  · intro h solver
    simp [fit_gmm_fit, h]

/-- Witness for claim C2 at a concrete sample: 2 distinct points reject a
5-component fit and accept a 2-component fit. -/
theorem fixed_count_insufficient_support_witness :
    (sampleTwo.dedup.length < 5 ∧
      fit_gmm_fit solverU sampleTwo 5 100 1 = none) ∧
    (2 ≤ sampleTwo.dedup.length ∧
      fit_gmm_fit solverU sampleTwo 2 100 1 = some (solverU 2 100 1 sampleTwo)) :=
  ⟨⟨by decide,
    (@fixed_count_insufficient_support Unit sampleTwo 5 100 1).1 (by decide) Unit solverU⟩,
   ⟨by decide,
    (@fixed_count_insufficient_support Unit sampleTwo 2 100 1).2 (by decide) solverU⟩⟩

/-- Once past the distinct-support guard, `fit_gmm_bic` never returns the
None result: it selects a candidate or raises. -/
lemma select_bic_ne_ok_none {μ : Type} (min_n : ℕ) (gl : List μ) (bl : List ℚ) :
    select_bic min_n gl bl ≠ .ok none := by
  cases bl with
  | nil => simp [select_bic]
  | cons b bs =>
    rcases hg : gl.get? (pyIndex (pyMin b bs) (b :: bs)) with _ | g <;>
      rw [List.get?_eq_getElem?] at hg <;> simp [select_bic, hg]

/-- Claim C8: precondition of the best-of-range fitter. `fit_gmm_bic` returns
the no-fit result None exactly when the number of distinct coordinates in the
sample does not strictly exceed `min_n_comp`; otherwise it proceeds to the
candidate fits (returning a selected candidate or raising). -/
theorem bic_precondition_no_fit {μ : Type} (solver : SolverB μ)
    (bicOf : μ → List Coord → ℚ) (m : Matrix2)
    (min_n_comp max_n_comp max_iter : ℕ) :
    fit_gmm_bic solver bicOf m min_n_comp max_n_comp max_iter = .ok none ↔
      (array_to_list m).dedup.length ≤ min_n_comp := by
  rw [fit_gmm_bic_eq]
  by_cases h1 : min_n_comp < (array_to_list m).dedup.length
  · rw [if_pos h1]
    constructor
    · intro h
      exact absurd h (select_bic_ne_ok_none _ _ _)
    · intro h
      omega
  · rw [if_neg h1]
    constructor
    · intro _
      omega
    · intro _
      rfl

/-- Claim C3: BIC model selection. When the distinct-point precondition holds
and the candidate range is nonempty, `fit_gmm_bic` returns a candidate of the
half-open range whose BIC score is minimal among all candidates, and on an
exact BIC tie the smallest component count wins. -/
theorem bic_model_selection {μ : Type} (solver : SolverB μ)
    (bicOf : μ → List Coord → ℚ) (m : Matrix2)
    (min_n_comp max_n_comp max_iter : ℕ)
    (h1 : min_n_comp < (array_to_list m).dedup.length)
    (h2 : min_n_comp < max_n_comp) :
    ∃ n g,
      fit_gmm_bic solver bicOf m min_n_comp max_n_comp max_iter =
        .ok (some (n, g)) ∧
      min_n_comp ≤ n ∧ n < max_n_comp ∧
      g = solver n max_iter (array_to_list m) ∧
      (∀ k, min_n_comp ≤ k → k < max_n_comp →
        bicOf g (array_to_list m) ≤
          bicOf (solver k max_iter (array_to_list m)) (array_to_list m)) ∧
      (∀ k, min_n_comp ≤ k → k < max_n_comp →
        bicOf (solver k max_iter (array_to_list m)) (array_to_list m) =
          bicOf g (array_to_list m) → n ≤ k) := by
  obtain ⟨K', hK'⟩ : ∃ K', max_n_comp - min_n_comp = K' + 1 :=
    ⟨max_n_comp - min_n_comp - 1, by omega⟩
  rw [fit_gmm_bic_eq]
  rw [if_pos h1]
  set res := array_to_list m with hres
  set B : ℕ → ℚ := fun k => bicOf (solver k max_iter res) res with hBdef
  set gl := (List.range' min_n_comp (max_n_comp - min_n_comp)).map
      (fun i => solver i max_iter res) with hgl
  have hbl : gl.map (fun g => bicOf g res) =
      (List.range' min_n_comp (max_n_comp - min_n_comp)).map B := by
    rw [hgl, List.map_map]
    rfl
  have hget : ∀ j, j < max_n_comp - min_n_comp →
      ((List.range' min_n_comp (max_n_comp - min_n_comp)).map B).get? j =
        some (B (min_n_comp + j)) := by
    intro j hj
    rw [List.get?_eq_getElem?, List.getElem?_map, List.getElem?_range' _ _ hj]
    simp
  have hcons : (List.range' min_n_comp (max_n_comp - min_n_comp)).map B =
      B min_n_comp :: (List.range' (min_n_comp + 1) K').map B := by
    rw [hK']
    rfl
  set tail := (List.range' (min_n_comp + 1) K').map B with htail
  set mn := pyMin (B min_n_comp) tail with hmn
  set idx := pyIndex mn (B min_n_comp :: tail) with hidx
  have hmem : mn ∈ B min_n_comp :: tail := by
    rcases pyMin_mem (B min_n_comp) tail with h | h
    · rw [hmn, h]
      exact List.mem_cons_self _ _
    · exact List.mem_cons_of_mem _ h
  have hlb : ∀ x ∈ B min_n_comp :: tail, mn ≤ x := by
    intro x hx
    rcases List.mem_cons.mp hx with hx | hx
    · rw [hx, hmn]
      exact (pyMin_le (B min_n_comp) tail).1
    · rw [hmn]
      exact (pyMin_le (B min_n_comp) tail).2 x hx
  have hclen : (B min_n_comp :: tail).length = max_n_comp - min_n_comp := by
    rw [htail]
    simp [List.length_range', hK']
  have hidx_lt : idx < max_n_comp - min_n_comp := by
    have h3 := pyIndex_lt mn (B min_n_comp :: tail) hmem
    rw [hclen] at h3
    rw [hidx]
    exact h3
  have hgetmn : (B min_n_comp :: tail).get? idx = some mn := by
    rw [hidx]
    exact get_pyIndex mn _ hmem
  have hBidx : B (min_n_comp + idx) = mn := by
    have h4 := hget idx hidx_lt
    rw [hcons] at h4
    rw [h4] at hgetmn
    exact Option.some.inj hgetmn.symm |>.symm
  have hglget : gl.get? idx = some (solver (min_n_comp + idx) max_iter res) := by
    rw [hgl, List.get?_eq_getElem?, List.getElem?_map, List.getElem?_range' _ _ hidx_lt]
    simp
  refine ⟨min_n_comp + idx, solver (min_n_comp + idx) max_iter res, ?_,
    by omega, by omega, rfl, ?_, ?_⟩
  · rw [hbl, hcons]
    simp only [select_bic]
    rw [← hmn, ← hidx, hglget]
  · intro k hk1 hk2
    have h5 := hget (k - min_n_comp) (by omega)
    have h6 : min_n_comp + (k - min_n_comp) = k := by omega
    rw [h6] at h5
    have hmemk : B k ∈ (List.range' min_n_comp (max_n_comp - min_n_comp)).map B :=
      List.get?_mem h5
    rw [hcons] at hmemk
    have h7 := hlb (B k) hmemk
    show B (min_n_comp + idx) ≤ B k
    rw [hBidx]
    exact h7
  · intro k hk1 hk2 heq
    by_contra hgt
    push_neg at hgt
    have hj : k - min_n_comp < idx := by omega
    have h5 := hget (k - min_n_comp) (by omega)
    have h6 : min_n_comp + (k - min_n_comp) = k := by omega
    rw [h6] at h5
    have heq2 : B k = mn := by
      have h8 : B k = B (min_n_comp + idx) := heq
      rw [h8, hBidx]
    have hj2 : k - min_n_comp < pyIndex mn (B min_n_comp :: tail) := by
      rw [← hidx]
      exact hj
    have h9 := pyIndex_first mn (B min_n_comp :: tail) (k - min_n_comp) hj2
    rw [hcons] at h5
    rw [heq2] at h5
    exact h9 h5

/-- Witness for claim C3 at a concrete instance: candidates 2, 3, 4 score
9, 5, 5, and the tie between 3 and 4 resolves to component count 3. -/
theorem bic_model_selection_witness :
    (2 < (array_to_list [[1, 1, 1]]).dedup.length ∧ 2 < 5) ∧
    (∃ n g,
      fit_gmm_bic solN bicN [[1, 1, 1]] 2 5 100 = .ok (some (n, g)) ∧
      2 ≤ n ∧ n < 5 ∧
      g = solN n 100 (array_to_list [[1, 1, 1]]) ∧
      (∀ k, 2 ≤ k → k < 5 →
        bicN g (array_to_list [[1, 1, 1]]) ≤
          bicN (solN k 100 (array_to_list [[1, 1, 1]]))
            (array_to_list [[1, 1, 1]])) ∧
      (∀ k, 2 ≤ k → k < 5 →
        bicN (solN k 100 (array_to_list [[1, 1, 1]]))
            (array_to_list [[1, 1, 1]]) =
          bicN g (array_to_list [[1, 1, 1]]) → n ≤ k)) :=
  ⟨⟨by decide, by decide⟩,
   bic_model_selection solN bicN [[1, 1, 1]] 2 5 100 (by decide) (by decide)⟩

/-- Dict assignment does not disturb entries under a different key. -/
lemma mem_insertD_ne {β : Type} (d : List (String × β)) (k : String) (v : β)
    (g : String) (w : β) (h : g ≠ k) :
    ((g, w) ∈ insertD d k v) ↔ (g, w) ∈ d := by
  induction d with
  | nil =>
    simp [insertD, Prod.mk.injEq, h]
  | cons p rest ih =>
    obtain ⟨k0, v0⟩ := p
    by_cases hk : k0 = k
    · subst hk
      simp only [insertD, if_pos rfl, List.mem_cons]
      have hne : ¬ ((g, w) = (k0, v)) := by
        simp [Prod.mk.injEq]
        intro he
        exact absurd he h
      have hne2 : ¬ ((g, w) = (k0, v0)) := by
        simp [Prod.mk.injEq]
        intro he
        exact absurd he h
      simp [hne, hne2]
    · simp only [insertD, if_neg hk, List.mem_cons, ih]

/-- Dict assignment at key k puts value v there; when every previous entry at
k already carried v, an entry (k, w) exists afterwards exactly for w = v. -/
lemma mem_insertD_self {β : Type} (d : List (String × β)) (k : String) (v w : β)
    (hcoh : ∀ u, (k, u) ∈ d → u = v) :
    ((k, w) ∈ insertD d k v) ↔ w = v := by
  induction d with
  | nil => simp [insertD, Prod.mk.injEq]
  | cons p rest ih =>
    obtain ⟨k0, v0⟩ := p
    by_cases hk : k0 = k
    · subst hk
      have hstep : insertD ((k0, v0) :: rest) k0 v = (k0, v) :: rest := by
        show (if k0 = k0 then (k0, v) :: rest else (k0, v0) :: insertD rest k0 v) =
          (k0, v) :: rest
        rw [if_pos rfl]
      rw [hstep, List.mem_cons]
      constructor
      · rintro (h | h)
        · exact congrArg Prod.snd h
        · exact hcoh w (List.mem_cons_of_mem _ h)
      · intro h
        left
        rw [h]
    · have hstep : insertD ((k0, v0) :: rest) k v = (k0, v0) :: insertD rest k v := by
        show (if k0 = k then (k0, v) :: rest else (k0, v0) :: insertD rest k v) =
          (k0, v0) :: insertD rest k v
        rw [if_neg hk]
      have ih2 := ih (fun u hu => hcoh u (List.mem_cons_of_mem _ hu))
      rw [hstep, List.mem_cons]
      constructor
      · rintro (h | h)
        · exact absurd (congrArg Prod.fst h).symm hk
        · exact ih2.mp h
      · intro h
        right
        exact ih2.mpr h

/-- Invariant of the `fit_gmms` loop: when no remaining gene raises, the loop
returns, the final dict holds exactly the genes (already processed per Q, or
remaining) whose fit produced a model, and the dropped counter grows by the
number of remaining no-fit genes. -/
lemma fit_gmms_go_spec {μ : Type} (fitOf : String → Except String (Option μ)) :
    ∀ (genes : List String) (Q : String → Prop) (d0 : List (String × μ)) (k0 : ℕ),
      (∀ g ∈ genes, isOkE (fitOf g) = true) →
      (∀ g v, ((g, v) ∈ d0 ↔ (Q g ∧ fitOf g = .ok (some v)))) →
      ∃ d k, fit_gmms_go fitOf genes d0 k0 = .ok (d, k) ∧
        (∀ g v, ((g, v) ∈ d ↔ ((Q g ∨ g ∈ genes) ∧ fitOf g = .ok (some v)))) ∧
        k = k0 + genes.countP (fun g => isOkNone (fitOf g)) := by
  intro genes
  induction genes with
  | nil =>
    intro Q d0 k0 hok hinv
    refine ⟨d0, k0, rfl, ?_, by simp⟩
    intro g v
    rw [hinv g v]
    simp
  | cons g0 rest ih =>
    intro Q d0 k0 hok hinv
    rcases hfit : fitOf g0 with e | r
    · have hbad := hok g0 (List.mem_cons_self _ _)
      rw [hfit] at hbad
      simp [isOkE] at hbad
    · cases r with
      | none =>
        have hstep : fit_gmms_go fitOf (g0 :: rest) d0 k0 =
            fit_gmms_go fitOf rest d0 (k0 + 1) := by
          simp only [fit_gmms_go, hfit]
        obtain ⟨d, k, h1, h2, h3⟩ := ih (fun x => Q x ∨ x = g0) d0 (k0 + 1)
          (fun x hx => hok x (List.mem_cons_of_mem _ hx))
          (by
            intro g v
            rw [hinv g v]
            constructor
            · rintro ⟨hq, he⟩
              exact ⟨Or.inl hq, he⟩
            · rintro ⟨hq | hq, he⟩
              · exact ⟨hq, he⟩
              · rw [hq, hfit] at he
                simp at he)
        refine ⟨d, k, hstep ▸ h1, ?_, ?_⟩
        · intro g v
          rw [h2 g v]
          constructor
          · rintro ⟨hq, he⟩
            refine ⟨?_, he⟩
            rcases hq with (hq | hq) | hq
            · exact Or.inl hq
            · exact Or.inr (hq ▸ List.mem_cons_self _ _)
            · exact Or.inr (List.mem_cons_of_mem _ hq)
          · rintro ⟨hq, he⟩
            refine ⟨?_, he⟩
            rcases hq with hq | hq
            · exact Or.inl (Or.inl hq)
            · rcases List.mem_cons.mp hq with hq | hq
              · exact Or.inl (Or.inr hq)
              · exact Or.inr hq
        · have hcnt : isOkNone (fitOf g0) = true := by
            rw [hfit]
            rfl
          rw [h3, List.countP_cons]
          simp [hcnt]
          omega
      | some v0 =>
        have hstep : fit_gmms_go fitOf (g0 :: rest) d0 k0 =
            fit_gmms_go fitOf rest (insertD d0 g0 v0) k0 := by
          simp only [fit_gmms_go, hfit]
        have hcoh : ∀ u, (g0, u) ∈ d0 → u = v0 := by
          intro u hu
          have h5 := ((hinv g0 u).mp hu).2
          rw [hfit] at h5
          simp at h5
          exact h5.symm
        obtain ⟨d, k, h1, h2, h3⟩ := ih (fun x => Q x ∨ x = g0) (insertD d0 g0 v0) k0
          (fun x hx => hok x (List.mem_cons_of_mem _ hx))
          (by
            intro g v
            by_cases hg : g = g0
            · subst hg
              rw [mem_insertD_self d0 g v0 v hcoh]
              constructor
              · intro h
                rw [h]
                exact ⟨Or.inr rfl, hfit⟩
              · rintro ⟨_, he⟩
                rw [hfit] at he
                simp at he
                exact he.symm
            · rw [mem_insertD_ne d0 g0 v0 g v hg, hinv g v]
              constructor
              · rintro ⟨hq, he⟩
                exact ⟨Or.inl hq, he⟩
              · rintro ⟨hq | hq, he⟩
                · exact ⟨hq, he⟩
                · exact absurd hq hg)
        refine ⟨d, k, hstep ▸ h1, ?_, ?_⟩
        · intro g v
          rw [h2 g v]
          constructor
          · rintro ⟨hq, he⟩
            refine ⟨?_, he⟩
            rcases hq with (hq | hq) | hq
            · exact Or.inl hq
            · exact Or.inr (hq ▸ List.mem_cons_self _ _)
            · exact Or.inr (List.mem_cons_of_mem _ hq)
          · rintro ⟨hq, he⟩
            refine ⟨?_, he⟩
            rcases hq with hq | hq
            · exact Or.inl (Or.inl hq)
            · rcases List.mem_cons.mp hq with hq | hq
              · exact Or.inl (Or.inr hq)
              · exact Or.inr hq
        · have hcnt : isOkNone (fitOf g0) = false := by
            rw [hfit]
            rfl
          rw [h3, List.countP_cons]
          simp [hcnt]

/-- Claim C4: batch isolation of the sequential batch fitter. When no gene of
the list makes its per-gene fit raise, `fit_gmms` returns a mapping holding
an entry exactly for each listed gene whose fit produced a model, and the
dropped-gene count equals the number of listed genes whose fit returned the
no-fit result (too few distinct points, including an empty sample). -/
theorem batch_isolation {μ : Type} (solver : SolverF μ) (adata : String → Matrix2)
    (genes : List String) (n_comp : ℕ) (binary : Bool) (threshold : ℤ)
    (max_iter : ℕ) (reg_covar : ℚ)
    (hok : ∀ g ∈ genes,
      isOkE (geneFit solver adata n_comp binary threshold max_iter reg_covar g) = true) :
    ∃ d k,
      fit_gmms solver adata genes n_comp binary threshold max_iter reg_covar =
        .ok (d, k) ∧
      (∀ g v, ((g, v) ∈ d ↔ (g ∈ genes ∧
        geneFit solver adata n_comp binary threshold max_iter reg_covar g =
          .ok (some v)))) ∧
      k = genes.countP (fun g =>
        isOkNone (geneFit solver adata n_comp binary threshold max_iter reg_covar g)) := by
  obtain ⟨d, k, h1, h2, h3⟩ :=
    fit_gmms_go_spec (geneFit solver adata n_comp binary threshold max_iter reg_covar)
      genes (fun _ => False) [] 0 hok (by simp)
  refine ⟨d, k, h1, ?_, by omega⟩
  intro g v
  rw [h2 g v]
  simp

/-- Witness for claim C4 at a concrete batch: gene a fits, gene b has an
empty sample and is dropped without raising. -/
theorem batch_isolation_witness :
    (∀ g ∈ (["a", "b"] : List String),
      isOkE (geneFit solverU adBatch 1 false 95 100 1 g) = true) ∧
    (∃ d k,
      fit_gmms solverU adBatch ["a", "b"] 1 false 95 100 1 = .ok (d, k) ∧
      (∀ g v, ((g, v) ∈ d ↔ (g ∈ (["a", "b"] : List String) ∧
        geneFit solverU adBatch 1 false 95 100 1 g = .ok (some v)))) ∧
      k = (["a", "b"] : List String).countP (fun g =>
        isOkNone (geneFit solverU adBatch 1 false 95 100 1 g))) :=
  ⟨by decide,
   batch_isolation solverU adBatch ["a", "b"] 1 false 95 100 1 (by decide)⟩

/-- Abort of the `fit_gmms` loop at the first gene whose fit raises. -/
lemma fit_gmms_go_abort {μ : Type} (fitOf : String → Except String (Option μ))
    (g e : String) (post : List String) (hg : fitOf g = .error e) :
    ∀ (pre : List String) (d0 : List (String × μ)) (k0 : ℕ),
      (∀ x ∈ pre, isOkE (fitOf x) = true) →
      fit_gmms_go fitOf (pre ++ g :: post) d0 k0 = .error (geneIdMsg g e) := by
  intro pre
  induction pre with
  | nil =>
    intro d0 k0 _
    simp only [List.nil_append]
    simp only [fit_gmms_go, hg]
  | cons x xs ih =>
    intro d0 k0 hok
    rcases hfx : fitOf x with e0 | r
    · have hbad := hok x (List.mem_cons_self _ _)
      rw [hfx] at hbad
      simp [isOkE] at hbad
    · cases r with
      | none =>
        have hstep : fit_gmms_go fitOf ((x :: xs) ++ g :: post) d0 k0 =
            fit_gmms_go fitOf (xs ++ g :: post) d0 (k0 + 1) := by
          simp only [List.cons_append, fit_gmms_go, hfx]
          rfl
        rw [hstep]
        exact ih d0 (k0 + 1) (fun y hy => hok y (List.mem_cons_of_mem _ hy))
      | some v =>
        have hstep : fit_gmms_go fitOf ((x :: xs) ++ g :: post) d0 k0 =
            fit_gmms_go fitOf (xs ++ g :: post) (insertD d0 x v) k0 := by
          simp only [List.cons_append, fit_gmms_go, hfx]
          rfl
        rw [hstep]
        exact ih _ k0 (fun y hy => hok y (List.mem_cons_of_mem _ hy))

/-- Claim C5, amended: in the sequential batch fitter `fit_gmms`, the first
gene whose per-gene fit raises aborts the batch with a ValueError carrying
that gene id and the original error text. (As stated over every batch
operation the claim fails: `fit_gmms_multiprocessing` silently discards a
raising worker, see the counterexample.) -/
theorem batch_abort_sequential {μ : Type} (solver : SolverF μ)
    (adata : String → Matrix2) (pre post : List String) (g e : String)
    (n_comp : ℕ) (binary : Bool) (threshold : ℤ) (max_iter : ℕ) (reg_covar : ℚ)
    (hpre : ∀ x ∈ pre,
      isOkE (geneFit solver adata n_comp binary threshold max_iter reg_covar x) = true)
    (hg : geneFit solver adata n_comp binary threshold max_iter reg_covar g =
      .error e) :
    fit_gmms solver adata (pre ++ g :: post) n_comp binary threshold max_iter reg_covar =
      .error (geneIdMsg g e) :=
  fit_gmms_go_abort _ g e post hg pre [] 0 hpre

/-- Witness for the amended claim C5: the batch a, b in binary mode aborts
with a ValueError naming gene b and the percentile error text. -/
theorem batch_abort_sequential_witness :
    ((∀ x ∈ (["a"] : List String),
      isOkE (geneFit solverU adAbort 1 true 95 100 1 x) = true) ∧
      geneFit solverU adAbort 1 true 95 100 1 "b" = .error percentileErrMsg) ∧
    fit_gmms solverU adAbort (["a"] ++ "b" :: []) 1 true 95 100 1 =
      .error (geneIdMsg "b" percentileErrMsg) :=
  ⟨⟨by decide, by rfl⟩,
   batch_abort_sequential solverU adAbort ["a"] [] "b" percentileErrMsg 1 true 95 100 1
     (by decide) (by rfl)⟩

/-- Counterexample to claim C5 as stated: in the batch operation
`fit_gmms_multiprocessing` with n_comp = 5 and max_iter = 3, the per-gene fit
of gene g1 raises (the worker calls `fit_gmm_bic` with candidate range
`range(5, 3)`, which is empty, so `min(bic_list)` raises a ValueError), yet
the batch does not raise and returns a result mapping, with no mention of
gene g1 or the error text. -/
theorem batch_abort_multiprocessing_counterexample :
    isOkE (fit_gmm_bic solN bicN (adSix "g1") 5 3 200) = false ∧
    fit_gmms_multiprocessing solN bicN adSix ["g1"] 5 3 = [] := by
  constructor
  · decide
  · decide

/-- A sample with at most `min_n_comp` distinct coordinates makes
`fit_gmm_bic` return None. -/
lemma fit_gmm_bic_ok_none_of_le {μ : Type} (solver : SolverB μ)
    (bicOf : μ → List Coord → ℚ) (m : Matrix2) (min_n_comp max_n_comp max_iter : ℕ)
    (h : (array_to_list m).dedup.length ≤ min_n_comp) :
    fit_gmm_bic solver bicOf m min_n_comp max_n_comp max_iter = .ok none := by
  rw [fit_gmm_bic_eq, if_neg (by omega)]

/-- Abort of the `fit_gmms_bic` loop at the first gene whose fit result
fails to unpack. -/
lemma fit_gmms_bic_go_abort {μ : Type}
    (fitOf : String → Except String (Option (ℕ × μ))) (g : String)
    (post : List String) (hg : fitOf g = .ok none) :
    ∀ (pre : List String) (gd : List (String × μ)) (cd : List (ℕ × List String)),
      (∀ x ∈ pre, ∃ r, fitOf x = .ok (some r)) →
      fit_gmms_bic_go fitOf (pre ++ g :: post) gd cd =
        .error (geneIdMsg g unpackNoneMsg) := by
  intro pre
  induction pre with
  | nil =>
    intro gd cd _
    simp only [List.nil_append]
    simp only [fit_gmms_bic_go, hg]
  | cons x xs ih =>
    intro gd cd hok
    obtain ⟨r, hr⟩ := hok x (List.mem_cons_self _ _)
    have hstep : fit_gmms_bic_go fitOf ((x :: xs) ++ g :: post) gd cd =
        fit_gmms_bic_go fitOf (xs ++ g :: post) (insertD gd x r.2)
          (insertComp cd r.1 x) := by
      simp only [List.cons_append, fit_gmms_bic_go, hr]
      rfl
    rw [hstep]
    exact ih _ _ (fun y hy => hok y (List.mem_cons_of_mem _ hy))

/-- Claim C10: in the BIC batch operation `fit_gmms_bic`, a gene whose
sample has at most `min_n_comp` distinct coordinates is not skip-counted:
unpacking the None returned by `fit_gmm_bic` raises, and the whole batch
aborts with a ValueError naming that gene (provided the genes before it
unpacked fine). -/
theorem bic_batch_unpack_abort {μ : Type} (solver : SolverB μ)
    (bicOf : μ → List Coord → ℚ) (adata : String → Matrix2)
    (pre post : List String) (g : String) (min_n_comp max_n_comp max_iter : ℕ)
    (hpre : ∀ x ∈ pre, ∃ r,
      bicGeneFit solver bicOf adata min_n_comp max_n_comp max_iter x = .ok (some r))
    (hg : (array_to_list (adata g)).dedup.length ≤ min_n_comp) :
    fit_gmms_bic solver bicOf adata (pre ++ g :: post) min_n_comp max_n_comp max_iter =
      .error (geneIdMsg g unpackNoneMsg) :=
  fit_gmms_bic_go_abort _ g post
    (fit_gmm_bic_ok_none_of_le solver bicOf (adata g) min_n_comp max_n_comp max_iter hg)
    pre [] [] hpre

/-- Witness for claim C10: gene b has an empty sample, and the batch aborts
with a ValueError naming gene b instead of skip-counting it. -/
theorem bic_batch_unpack_abort_witness :
    ((∀ x ∈ (["a"] : List String), ∃ r,
      bicGeneFit solN bicN adUnpack 1 3 3 x = .ok (some r)) ∧
      (array_to_list (adUnpack "b")).dedup.length ≤ 1) ∧
    fit_gmms_bic solN bicN adUnpack (["a"] ++ "b" :: []) 1 3 3 =
      .error (geneIdMsg "b" unpackNoneMsg) :=
  ⟨⟨fun x hx => by
      have hx2 : x = "a" := List.mem_singleton.mp hx
      subst hx2
      exact ⟨(1, 1), by rfl⟩,
    by decide⟩,
   bic_batch_unpack_abort solN bicN adUnpack ["a"] [] "b" 1 3 3
     (fun x hx => by
       have hx2 : x = "a" := List.mem_singleton.mp hx
       subst hx2
       exact ⟨(1, 1), by rfl⟩)
     (by decide)⟩

/-- Zeta-reduced equation for the binary branch of `fit_gmm_sample`. -/
lemma fit_gmm_sample_binary_eq (m : Matrix2) (cut : Bool) (threshold : ℤ) :
    fit_gmm_sample m true cut threshold =
      match percentile m
          (((if pyGuard threshold then (100 : ℤ) else threshold) : ℤ) : ℚ) with
      | none => .error percentileErrMsg
      | some p => .ok (array_to_list (binarize m p)) := rfl

/-- Claim C6 (defect): the percentile guard is dead code. Because the Python
bitwise `|` binds tighter than the comparisons, line 104 chains to
`(threshold > (100 | threshold)) and ((100 | threshold) < 0)`, which is false
at the out-of-range thresholds 150 and -5, so no correction is reported and
no clamped substitute is used: the raw out-of-range percentile reaches
np.percentile, which raises, while a genuinely clamped threshold of 100
would have succeeded. -/
theorem percentile_guard_dead :
    pyGuard 150 = false ∧
    fit_gmm_sample [[1, 2]] true false 150 = .error percentileErrMsg ∧
    isOkE (fit_gmm_sample [[1, 2]] true false 100) = true := by
  refine ⟨by decide, by rfl, ?_⟩
  have hg : pyGuard 100 = false := by decide
  have hp2 : percentile [[1, 2]] (((100 : ℤ)) : ℚ) = some 2 := by
    norm_num [percentile, npSort, List.insertionSort, List.orderedInsert, interp]
    exact fun h => absurd h (by simp)
  rw [fit_gmm_sample_binary_eq]
  rw [show (((if pyGuard 100 then (100 : ℤ) else 100) : ℤ) : ℚ) = (((100 : ℤ)) : ℚ) from
    by rw [hg]; rfl]
  rw [hp2]
  rfl

/-- Claim C7 (defect): the worker of `fit_gmms_multiprocessing` passes the
caller parameters n_comp = 5 and max_iter = 7 positionally into the
`min_n_comp` and `max_n_comp` slots of `fit_gmm_bic`. The stored result for
gene g is a 6-component model fitted with the default EM budget 200 — not a
5-component model fitted with budget 7 as the advertised contract states. -/
theorem worker_parameter_mismatch :
    fit_gmms_multiprocessing solRec bicPrefSix adSix ["g"] 5 7 =
      [("g", some (6, (6, 200)))] ∧
    ((6, 200) : ℕ × ℕ) ≠ ((5, 7) : ℕ × ℕ) := by
  refine ⟨by rfl, by decide⟩

/-- getD of a list through its optional lookup. -/
lemma getD_via_get {α : Type} (l : List α) (n : ℕ) (d : α) :
    l.getD n d = (l.get? n).getD d := by
  induction l generalizing n with
  | nil => cases n <;> rfl
  | cons a as ih =>
    cases n with
    | zero => rfl
    | succ k => exact ih k

/-- Entry of the binarized matrix: 1 on an in-range cell strictly above the
threshold value, 0 everywhere else (including outside the matrix). -/
lemma binarize_getD (m : Matrix2) (p : ℚ) (r c : ℕ) :
    ((binarize m p).getD r []).getD c 0 =
      if r < m.length ∧ c < (m.getD r []).length ∧
          p < (((m.getD r []).getD c 0 : ℕ) : ℚ) then 1 else 0 := by
  have houter : (binarize m p).getD r [] =
      (Option.map
        (fun row => List.map (fun (x : ℕ) => if p < ((x : ℚ)) then (1 : ℕ) else 0) row)
        m[r]?).getD [] := by
    rw [binarize, getD_via_get, List.get?_eq_getElem?, List.getElem?_map]
  rcases hm : m[r]? with _ | row
  · have hr : ¬ r < m.length := by
      intro h
      rw [List.getElem?_eq_getElem h] at hm
      cases hm
    rw [houter, hm]
    simp [hr]
  · have hr : r < m.length := by
      by_contra h
      rw [List.getElem?_eq_none (by omega)] at hm
      cases hm
    have hrow : m.getD r [] = row := by
      rw [getD_via_get, List.get?_eq_getElem?, hm]
      rfl
    rw [houter, hm, Option.map_some', Option.getD_some]
    have hinner :
        (List.map (fun (x : ℕ) => if p < ((x : ℚ)) then (1 : ℕ) else 0) row).getD c 0 =
          (Option.map (fun (x : ℕ) => if p < ((x : ℚ)) then (1 : ℕ) else 0)
            row[c]?).getD 0 := by
      rw [getD_via_get, List.get?_eq_getElem?, List.getElem?_map]
    rw [hinner]
    rcases hc : row[c]? with _ | x
    · have hcn : ¬ c < row.length := by
        intro h
        rw [List.getElem?_eq_getElem h] at hc
        cases hc
      rw [hrow]
      simp [hcn]
    · have hcl : c < row.length := by
        by_contra h
        rw [List.getElem?_eq_none (by omega)] at hc
        cases hc
      have hcd : row.getD c 0 = x := by
        rw [getD_via_get, List.get?_eq_getElem?, hc]
        rfl
      rw [Option.map_some', Option.getD_some, hrow, hcd]
      by_cases hpx : p < (x : ℚ)
      · simp [hr, hcl, hpx]
      · simp [hr, hcl, hpx]

/-- Claim C9: binarization semantics. In binary mode, the sample handed to
the fitter is the expansion of the binarized matrix: each cell whose value
survives the percentile threshold contributes exactly one point regardless
of its original count, every other cell contributes none, and hence every
coordinate occurs at most once in the sample. -/
theorem binarization_semantics (m : Matrix2) (cut : Bool) (threshold : ℤ) (p : ℚ)
    (hp : percentile m
      (((if pyGuard threshold then (100 : ℤ) else threshold) : ℤ) : ℚ) = some p) :
    fit_gmm_sample m true cut threshold = .ok (array_to_list (binarize m p)) ∧
    (∀ r c : ℕ, (array_to_list (binarize m p)).count (r, c) =
      if r < m.length ∧ c < (m.getD r []).length ∧
          p < (((m.getD r []).getD c 0 : ℕ) : ℚ) then 1 else 0) ∧
    (∀ x : Coord, (array_to_list (binarize m p)).count x ≤ 1) := by
  refine ⟨?_, ?_, ?_⟩
  · rw [fit_gmm_sample_binary_eq, hp]
  · intro r c
    rw [count_array_to_list, binarize_getD]
  · intro x
    obtain ⟨r, c⟩ := x
    rw [count_array_to_list, binarize_getD]
    split
    · omega
    · omega

/-- Witness for claim C9 at a concrete matrix: the 95th percentile of
[[3, 1], [0, 2]] is 57/20, only the cell holding 3 survives, and the sample
carries exactly one copy of its coordinate. -/
theorem binarization_semantics_witness :
    (percentile [[3, 1], [0, 2]]
      (((if pyGuard 95 then (100 : ℤ) else 95) : ℤ) : ℚ) = some (57 / 20)) ∧
    (fit_gmm_sample [[3, 1], [0, 2]] true false 95 =
        .ok (array_to_list (binarize [[3, 1], [0, 2]] (57 / 20))) ∧
      (∀ r c : ℕ, (array_to_list (binarize [[3, 1], [0, 2]] (57 / 20))).count (r, c) =
        if r < ([[3, 1], [0, 2]] : Matrix2).length ∧
            c < (([[3, 1], [0, 2]] : Matrix2).getD r []).length ∧
            (57 / 20 : ℚ) < (((([[3, 1], [0, 2]] : Matrix2).getD r []).getD c 0 : ℕ) : ℚ)
        then 1 else 0) ∧
      (∀ x : Coord, (array_to_list (binarize [[3, 1], [0, 2]] (57 / 20))).count x ≤ 1)) := by
  have hg : pyGuard 95 = false := by decide
  have hp : percentile [[3, 1], [0, 2]]
      (((if pyGuard 95 then (100 : ℤ) else 95) : ℤ) : ℚ) = some (57 / 20) := by
    rw [hg]
    norm_num [percentile, npSort, List.insertionSort, List.orderedInsert, interp]
    refine ⟨by simp, ?_⟩
    simp only [show Int.toNat 2 = 2 from rfl]
    norm_num
  exact ⟨hp, binarization_semantics [[3, 1], [0, 2]] false 95 (57 / 20) hp⟩

end STMiner
